import Mathlib

/-!
Verification development for the CodeQueue detection-and-reconciliation core.

The development shallowly embeds the three central components of the source:

* the hasher (`src/utils/crypto.ts`, `hashTask`): an MD5 hex digest of the
  concatenation `task.file + task.tag + task.title`.  The MD5 primitive is
  external library code (Node's `crypto` module), so it is modelled as an
  arbitrary function `md5hex : String → String`; every property claimed of
  `hashTask` is independent of the digest's internals and is proved for all
  digest functions.
* the extractor (`ScannerService.scanDocument`): a line-by-line scan with the
  JavaScript regex `/TODO(\((.*?)\))?:\s*(.+)/` and the snippet-lookahead
  heuristic.  The regex is embedded by a backtracking matcher that follows the
  JS engine's order (optional group preferred, lazy `.*?`, greedy `\s*` with
  backtracking into `(.+)`).  Document lines, as supplied by the editor host,
  contain no line-terminator characters, so `.` is modelled as matching any
  character.
* the reconciler (`ScannerService.reconcileState`): load-time filtering of the
  persisted store, the additions batch, result matching by hash, the archive
  loop with first-`itemId`-match removal, and the dirty flag guarding the
  final write.  Provider calls resolve to values (both shipped providers catch
  all errors in `publishTask`/`archiveTask` and resolve normally), so a
  provider is modelled by the value its batch publish resolves to plus an
  archive outcome oracle that the reconciler never consults.
-/

namespace CodeQueue

/-- A scanned task (`Task` in `src/types/index.ts`).  The scanner always
assigns `hash` before the task is used, so the field is total here. -/
structure Task where
  title : String
  tag : String
  file : String
  line : Nat
  snippet : String
  hash : String
deriving Repr, DecidableEq

/-- A persisted store record (`TaskEntry` in `src/types/index.ts`). -/
structure TaskEntry where
  hash : String
  itemId : String
  file : String
deriving Repr, DecidableEq

/-- Digest of `hashTask` in `src/utils/crypto.ts`: the MD5 hex digest applied
to the bare concatenation `task.file + task.tag + task.title`.  The digest
primitive `md5hex` is external library code and is abstracted. -/
def hashTask (md5hex : String → String) (t : Task) : String :=
  md5hex (t.file ++ t.tag ++ t.title)

/-- The ASCII whitespace class of JavaScript's `\s` and `trim`. -/
def jsIsSpace (c : Char) : Bool :=
  c = ' ' ∨ c = '\t' ∨ c = '\n' ∨ c = '\r' ∨ c = '\x0b' ∨ c = '\x0c'

/-- Drop leading whitespace from a character list. -/
def trimListLeft (l : List Char) : List Char := l.dropWhile jsIsSpace

/-- Drop trailing whitespace from a character list. -/
def trimListRight (l : List Char) : List Char :=
  (l.reverse.dropWhile jsIsSpace).reverse

/-- JavaScript `String.prototype.trim` on document text. -/
def jsTrim (s : String) : String := String.mk (trimListRight (trimListLeft s.data))

/-- JavaScript `String.prototype.trimEnd`. -/
def jsTrimEnd (s : String) : String := String.mk (trimListRight s.data)

/-- Matcher for the tail `\s*(.+)` of the TODO regex, applied to the characters
after the colon.  Greedy `\s*` takes the maximal whitespace run; if that leaves
nothing for `(.+)` the engine backtracks one character, so an all-whitespace
tail matches with the final character as the message. -/
def matchMsgAfterColon (cs : List Char) : Option (List Char) :=
  match cs with
  | [] => none
  | _ :: _ =>
    let r := cs.dropWhile jsIsSpace
    if r = [] then
      match cs.getLast? with
      | some c => some [c]
      | none => none
    else some r

/-- Matcher for `:\s*(.+)`: a literal colon followed by the message tail. -/
def matchColonRest : List Char → Option (List Char)
  | ':' :: rest => matchMsgAfterColon rest
  | _ => none

/-- Lazy scan for `(.*?)\)` followed by `:\s*(.+)`: the shortest tag prefix
whose closing parenthesis is followed by a matching colon tail wins; a `)` not
followed by a matching tail is consumed by `.*?` and scanning continues. -/
def lazyTagScan : List Char → List Char → Option (List Char × List Char)
  | [], _ => none
  | c :: rest, acc =>
    if c = ')' then
      match matchColonRest rest with
      | some msg => some (acc.reverse, msg)
      | none => lazyTagScan rest (c :: acc)
    else lazyTagScan rest (c :: acc)

/-- Matcher for `(\((.*?)\))?:\s*(.+)` at the position just after `TODO`.  The
optional group is tried first (JS greedy `?`); if no tag match succeeds the
group is skipped and the colon must follow `TODO` directly. -/
def matchAfterTodo (cs : List Char) : Option (Option (List Char) × List Char) :=
  match cs with
  | '(' :: rest =>
    match lazyTagScan rest [] with
    | some (tag, msg) => some (some tag, msg)
    | none => (matchColonRest cs).map (fun m => (none, m))
  | _ => (matchColonRest cs).map (fun m => (none, m))

/-- Leftmost match of `/TODO(\((.*?)\))?:\s*(.+)/`: the match start index, the
captured tag group (when the group participated) and the message group. -/
def findTodoAt : Nat → List Char → Option (Nat × Option (List Char) × List Char)
  | _, [] => none
  | idx, c :: rest =>
    match c :: rest with
    | 'T' :: 'O' :: 'D' :: 'O' :: afterTodo =>
      match matchAfterTodo afterTodo with
      | some (tag, msg) => some (idx, tag, msg)
      | none => findTodoAt (idx + 1) rest
    | _ => findTodoAt (idx + 1) rest

/-- `line.match(regex)` for the scanner's TODO regex. -/
def regexMatchLine (line : String) : Option (Nat × Option (List Char) × List Char) :=
  findTodoAt 0 line.data

/-- Character class removed by the scanner's comment-marker strip
`replace(/[\s\/\#\*\<\!\-\;]/g, '')`. -/
def strippedChar (c : Char) : Bool :=
  jsIsSpace c ∨ c = '/' ∨ c = '#' ∨ c = '*' ∨ c = '<' ∨ c = '!' ∨ c = '-' ∨ c = ';'

/-- Whether a snippet string ends with the truncation marker. -/
def endsWithDots (s : String) : Bool :=
  s.data.reverse.take 3 = ['.', '.', '.']

/-- The scanner's lookahead loop over the lines below the TODO line.  `i` is
the 0-based index of the TODO line and `j` the index of the current line; the
loop skips leading blank lines, captures lines (appending a newline) once a
non-blank line is found, appends `...` and stops at `maxLines` captures, and
carries the source's `!foundStart && j > i + 10` stop check, which sits after
the point where `foundStart` has been set. -/
def snippetLookahead (maxLines : Nat) (i : Nat) :
    Nat → List String → String → Nat → Bool → String
  | _, [], snip, _, _ => snip
  | j, lineText :: rest, snip, captured, foundStart =>
    if foundStart = false ∧ (jsTrim lineText).data = [] then
      snippetLookahead maxLines i (j + 1) rest snip captured foundStart
    else
      let foundStart2 := true
      let snip2 := snip ++ lineText ++ "\n"
      let captured2 := captured + 1
      if captured2 ≥ maxLines then snip2 ++ "..."
      else if foundStart2 = false ∧ j > i + 10 then snip2
      else snippetLookahead maxLines i (j + 1) rest snip2 captured2 foundStart2

/-- Snippet computation for a matched line: inline-code lines become the
snippet verbatim, otherwise the lookahead runs over the following lines
(`rest`); a snippet not ending in `...` is right-trimmed. -/
def computeSnippet (enableSnippet : Bool) (maxLines : Nat) (line : String)
    (matchIdx : Nat) (i : Nat) (rest : List String) : String :=
  if enableSnippet then
    let preTodoContent := jsTrim (String.mk (line.data.take matchIdx))
    let isCode := ((preTodoContent.data.filter (fun c => !(strippedChar c))).length > 0)
    if isCode then line
    else
      let snip := snippetLookahead maxLines i (i + 1) rest "" 0 false
      if endsWithDots snip then snip else jsTrimEnd snip
  else ""

/-- The scan loop of `ScannerService.scanDocument` over the remaining lines,
with `i` the 0-based index of the current line.  A matched line yields a task
with trimmed title, tag defaulting to `"general"` for an absent or empty
capture (JS `match[2] || 'general'`), 1-based line number, the computed
snippet, and the content hash. -/
def scanDocAux (md5hex : String → String) (enableSnippet : Bool) (maxLines : Nat)
    (fileName : String) : Nat → List String → List Task
  | _, [] => []
  | i, line :: rest =>
    match regexMatchLine line with
    | none => scanDocAux md5hex enableSnippet maxLines fileName (i + 1) rest
    | some (matchIdx, tagOpt, msg) =>
      let snippet := computeSnippet enableSnippet maxLines line matchIdx i rest
      let baseTask : Task :=
        { title := jsTrim (String.mk msg)
          tag := match tagOpt with
                 | none => "general"
                 | some tg => if tg = [] then "general" else String.mk tg
          file := fileName
          line := i + 1
          snippet := snippet
          hash := "" }
      let task := { baseTask with hash := hashTask md5hex baseTask }
      task :: scanDocAux md5hex enableSnippet maxLines fileName (i + 1) rest

/-- `ScannerService.scanDocument`: scan a document's lines into tasks. -/
def scanDocument (md5hex : String → String) (enableSnippet : Bool) (maxLines : Nat)
    (fileName : String) (docLines : List String) : List Task :=
  scanDocAux md5hex enableSnippet maxLines fileName 0 docLines

/-- One element of the provider's batch-publish result set
(`Array<{ hash, itemId }>` in `TaskProvider.publishTasks`). -/
structure PubResult where
  hash : String
  itemId : Option String
deriving Repr, DecidableEq

/-- A provider as the reconciler observes it: the value its batch publish call
resolves to, and the outcome of each archive call.  Both shipped providers
catch every error inside `publishTask` and `archiveTask` and resolve normally,
so provider calls are total here; the reconciler never reads the archive
outcome. -/
structure Provider where
  publishTasks : List Task → List PubResult
  archiveOk : String → Bool

/-- Observable outcome of one `reconcileState` pass: the final in-memory
store, the batch publish calls issued (none or one), the archive calls in
order, the dirty flag, and whether the store was written back. -/
structure ReconcileOutput where
  store : List TaskEntry
  publishCalls : List (List Task)
  archiveCalls : List String
  stateChanged : Bool
  wrote : Bool
deriving Repr, DecidableEq

/-- The additions loop: tasks whose hash has no match among the stored entries
of this file are marked for creation, in order. -/
def tasksToPublish (storedFileTasks : List TaskEntry) (currentTasks : List Task) :
    List Task :=
  currentTasks.filter (fun t => ((storedFileTasks.find? (fun s => s.hash == t.hash)).isNone))

/-- The result-reconciliation loop after the batch publish: each published
task is matched to the first result with its hash; a truthy `itemId` on the
result and a truthy `task.hash` append a new entry and set the dirty flag. -/
def applyResults (fileName : String) (results : List PubResult) :
    List Task → List TaskEntry → Bool → List TaskEntry × Bool
  | [], store, changed => (store, changed)
  | task :: rest, store, changed =>
    match results.find? (fun r => r.hash == task.hash) with
    | some r =>
      match r.itemId with
      | some i =>
        if i ≠ "" then
          if task.hash ≠ "" then
            applyResults fileName results rest (store ++ [⟨task.hash, i, fileName⟩]) true
          else applyResults fileName results rest store changed
        else applyResults fileName results rest store changed
      | none => applyResults fileName results rest store changed
    | none => applyResults fileName results rest store changed

/-- The entries appended by `applyResults`, in order. -/
def pushedEntries (fileName : String) (results : List PubResult) :
    List Task → List TaskEntry
  | [] => []
  | task :: rest =>
    match results.find? (fun r => r.hash == task.hash) with
    | some r =>
      match r.itemId with
      | some i =>
        if i ≠ "" then
          if task.hash ≠ "" then
            ⟨task.hash, i, fileName⟩ :: pushedEntries fileName results rest
          else pushedEntries fileName results rest
        else pushedEntries fileName results rest
      | none => pushedEntries fileName results rest
    | none => pushedEntries fileName results rest

/-- Whether a stored entry's hash still occurs in the current scan
(`currentTasks.find(c => c.hash === stored.hash)` being truthy). -/
def keptInCur (cur : List Task) (s : TaskEntry) : Bool :=
  (cur.find? (fun c => c.hash == s.hash)).isSome

/-- The removals loop: for each snapshot entry whose hash disappeared, an
archive call is issued for its `itemId` and the first store element with that
`itemId` is removed (`findIndex` + `splice`), setting the dirty flag when a
removal happened.  Returns the final store, the dirty flag and the archive
calls in order. -/
def archivePass (cur : List Task) :
    List TaskEntry → List TaskEntry → Bool → List TaskEntry × Bool × List String
  | [], store, changed => (store, changed, [])
  | s :: snap, store, changed =>
    if keptInCur cur s then
      archivePass cur snap store changed
    else
      let found := store.any (fun x => x.itemId == s.itemId)
      let store2 := if found then store.eraseP (fun x => x.itemId == s.itemId) else store
      let changed2 := changed || found
      let rec2 := archivePass cur snap store2 changed2
      (rec2.1, rec2.2.1, s.itemId :: rec2.2.2)

/-- The body of `ScannerService.reconcileState` after loading and the provider
check: compute the additions against this file's partition, issue one batch
publish when the additions list is non-empty and fold its results into the
store, then run the removals loop over the snapshot partition, and write the
store back exactly when the dirty flag is set. -/
def reconcileCore (p : Provider) (fileName : String) (cur : List Task)
    (stored : List TaskEntry) : ReconcileOutput :=
  let storedFileTasks := stored.filter (fun t => t.file == fileName)
  let toPub := tasksToPublish storedFileTasks cur
  let pubPhase :=
    if 0 < toPub.length then
      let results := p.publishTasks toPub
      let ac := applyResults fileName results toPub stored false
      (ac.1, ac.2, [toPub])
    else (stored, false, ([] : List (List Task)))
  let arch := archivePass cur storedFileTasks pubPhase.1 pubPhase.2.1
  { store := arch.1
    publishCalls := pubPhase.2.2
    archiveCalls := arch.2.2
    stateChanged := arch.2.1
    wrote := arch.2.1 }

/-- A JavaScript value as it may occur in the persisted `codequeue.tasks`
array: `null`, `undefined`, a primitive, or an object carrying the entry
fields with `itemId` possibly absent.  Non-object primitives are summarised by
their `typeof`-relevant shape. -/
inductive StoredValue where
  | jsNull
  | jsUndefined
  | jsBool (b : Bool)
  | jsNum (n : Int)
  | jsStr (s : String)
  | jsObj (hash : String) (itemId : Option String) (file : String)
deriving Repr, DecidableEq

/-- The load-time migration filter
`storedTasks.filter(t => typeof t === 'object' && t.itemId)`.  For a `null`
element `typeof t === 'object'` holds (JS quirk) and the access `t.itemId`
then throws a TypeError, modelled as `Except.error`; all other non-object
values fail the `typeof` test and are dropped, and objects are kept exactly
when their `itemId` is truthy (present and non-empty). -/
def loadStored : List StoredValue → Except Unit (List TaskEntry)
  | [] => .ok []
  | v :: rest =>
    match v with
    | .jsNull => .error ()
    | .jsObj h (some i) f =>
      if i ≠ "" then
        match loadStored rest with
        | .ok l => .ok (⟨h, i, f⟩ :: l)
        | .error e => .error e
      else loadStored rest
    | _ => loadStored rest

/-- Full `ScannerService.reconcileState`: load and filter the raw persisted
array, return early with no calls when no provider is active, otherwise run
the reconcile body. -/
def reconcileState (provider : Option Provider) (fileName : String)
    (currentTasks : List Task) (rawStored : List StoredValue) :
    Except Unit ReconcileOutput :=
  match loadStored rawStored with
  | .error e => .error e
  | .ok validStoredTasks =>
    match provider with
    | none =>
      .ok { store := validStoredTasks, publishCalls := [], archiveCalls := []
            stateChanged := false, wrote := false }
    | some p => .ok (reconcileCore p fileName currentTasks validStoredTasks)

/-- A provider that publishes nothing and accepts every archive call; used to
instantiate claims at concrete inputs. -/
def trivialProvider : Provider :=
  { publishTasks := fun _ => [], archiveOk := fun _ => true }

/-- Whether the batch result set reports a usable creation for a task: the
first result with the task's hash exists and carries a truthy `itemId`. -/
def resultOkFor (results : List PubResult) (t : Task) : Bool :=
  match results.find? (fun r => r.hash == t.hash) with
  | some r =>
    match r.itemId with
    | some i => !(i == "")
    | none => false
  | none => false

/-- Whether a publish result reuses a stored entry's `itemId`. -/
def itemIdClash (r : PubResult) (e : TaskEntry) : Bool :=
  match r.itemId with
  | some i => i == e.itemId
  | none => false

/-- The per-file uniqueness invariant of §3: within the partition of the store
belonging to one file, hashes are pairwise distinct. -/
def atMostOnePerHash (fileName : String) (store : List TaskEntry) : Prop :=
  ((store.filter (fun e => e.file == fileName)).map (fun e => e.hash)).Nodup

/-! ### Supporting lemmas about the extractor -/

theorem matchMsgAfterColon_ne_nil {cs m : List Char}
    (h : matchMsgAfterColon cs = some m) : m ≠ [] := by
  cases cs with
  | nil => simp [matchMsgAfterColon] at h
  | cons c cs' =>
    simp only [matchMsgAfterColon] at h
    split at h
    · rcases hg : (c :: cs').getLast? with _ | x
      · simp [List.getLast?] at hg
      · rw [hg] at h
        cases h
        simp
    · cases h
      assumption

theorem matchColonRest_ne_nil {cs m : List Char}
    (h : matchColonRest cs = some m) : m ≠ [] := by
  match cs with
  | [] => simp [matchColonRest] at h
  | c :: rest =>
    by_cases hc : c = ':'
    · subst hc
      exact matchMsgAfterColon_ne_nil h
    · rw [matchColonRest] at h
      · simp at h
      · intro rest'
        exact fun hcontra => hc (by injection hcontra)

theorem lazyTagScan_msg_ne_nil {cs acc tag m : List Char}
    (h : lazyTagScan cs acc = some (tag, m)) : m ≠ [] := by
  induction cs generalizing acc with
  | nil => simp [lazyTagScan] at h
  | cons c rest ih =>
    simp only [lazyTagScan] at h
    split at h
    · rcases hr : matchColonRest rest with _ | msg'
      · rw [hr] at h
        exact ih h
      · rw [hr] at h
        cases h
        exact matchColonRest_ne_nil hr
    · exact ih h

theorem matchAfterTodo_msg_ne_nil {cs : List Char} {tagOpt : Option (List Char)}
    {m : List Char} (h : matchAfterTodo cs = some (tagOpt, m)) : m ≠ [] := by
  match cs with
  | [] =>
    simp only [matchAfterTodo] at h
    rcases hr : matchColonRest [] with _ | msg' <;> rw [hr] at h <;> simp at h
    rcases h with ⟨h1, h2⟩
    subst h2
    exact matchColonRest_ne_nil hr
  | c :: rest =>
    by_cases hc : c = '('
    · subst hc
      simp only [matchAfterTodo] at h
      rcases hl : lazyTagScan rest [] with _ | ⟨tg, msg'⟩
      · rw [hl] at h
        rcases hr : matchColonRest ('(' :: rest) with _ | msg2 <;> rw [hr] at h <;> simp at h
        rcases h with ⟨h1, h2⟩
        subst h2
        exact matchColonRest_ne_nil hr
      · rw [hl] at h
        simp at h
        rcases h with ⟨h1, h2⟩
        subst h2
        exact lazyTagScan_msg_ne_nil hl
    · rw [matchAfterTodo] at h
      · rcases hr : matchColonRest (c :: rest) with _ | msg' <;> rw [hr] at h <;> simp at h
        rcases h with ⟨h1, h2⟩
        subst h2
        exact matchColonRest_ne_nil hr
      · intro rest'
        exact fun hcontra => hc (by injection hcontra)

theorem findTodoAt_msg_ne_nil {idx j : Nat} {cs : List Char}
    {tagOpt : Option (List Char)} {m : List Char}
    (h : findTodoAt idx cs = some (j, tagOpt, m)) : m ≠ [] := by
  induction cs generalizing idx with
  | nil => simp [findTodoAt] at h
  | cons c rest ih =>
    rw [findTodoAt] at h
    split at h
    · rcases hm : matchAfterTodo _ with _ | ⟨tg, msg'⟩ <;> rw [hm] at h
      · exact ih h
      · cases h
        exact matchAfterTodo_msg_ne_nil hm
    · exact ih h

theorem regexMatchLine_msg_ne_nil {line : String} {j : Nat}
    {tagOpt : Option (List Char)} {m : List Char}
    (h : regexMatchLine line = some (j, tagOpt, m)) : m ≠ [] :=
  findTodoAt_msg_ne_nil h

theorem scanDocAux_title {md5hex : String → String} {en : Bool} {ml : Nat}
    {f : String} {lines : List String} {i : Nat} {t : Task}
    (h : t ∈ scanDocAux md5hex en ml f i lines) :
    ∃ line ∈ lines, ∃ j tagOpt msg, regexMatchLine line = some (j, tagOpt, msg) ∧
      msg ≠ [] ∧ t.title = jsTrim (String.mk msg) := by
  induction lines generalizing i with
  | nil => simp [scanDocAux] at h
  | cons line rest ih =>
    rw [scanDocAux] at h
    rcases hm : regexMatchLine line with _ | ⟨j, tagOpt, msg⟩ <;> rw [hm] at h
    · rcases ih h with ⟨l, hl, w⟩
      exact ⟨l, List.mem_cons_of_mem _ hl, w⟩
    · rcases List.mem_cons.1 h with rfl | hmem
      · exact ⟨line, List.mem_cons_self _ _,
          j, tagOpt, msg, hm, regexMatchLine_msg_ne_nil hm, rfl⟩
      · rcases ih hmem with ⟨l, hl, w⟩
        exact ⟨l, List.mem_cons_of_mem _ hl, w⟩

/-! ### Supporting lemmas about the reconciler -/

theorem mem_tasksToPublish {snap : List TaskEntry} {cur : List Task} {t : Task}
    (h : t ∈ tasksToPublish snap cur) :
    t ∈ cur ∧ ∀ s ∈ snap, s.hash ≠ t.hash := by
  rw [tasksToPublish, List.mem_filter] at h
  refine ⟨h.1, fun s hs => ?_⟩
  have h2 := h.2
  rw [Option.isNone_iff_eq_none, List.find?_eq_none] at h2
  intro heq
  exact h2 s hs (by simp [heq])

theorem mem_eraseP_of_pred_false {α : Type} {p : α → Bool} {x : α} {l : List α}
    (hx : x ∈ l) (hp : p x = false) : x ∈ l.eraseP p := by
  induction l with
  | nil => simp at hx
  | cons a l ih =>
    rw [List.eraseP_cons]
    rcases List.mem_cons.1 hx with rfl | hmem
    · simp [hp]
    · cases ha : p a
      · simp [ha]
        exact Or.inr (ih hmem)
      · simp [ha]
        exact hmem

theorem count_eraseP_of_pred_false {α : Type} [DecidableEq α] {p : α → Bool}
    {x : α} (l : List α) (hp : p x = false) :
    (l.eraseP p).count x = l.count x := by
  induction l with
  | nil => simp
  | cons a l ih =>
    rw [List.eraseP_cons]
    cases ha : p a
    · simp only [cond_false, List.count_cons, ih]
    · have hne : ¬ a = x := fun h => by rw [h] at ha; rw [ha] at hp; cases hp
      simp [List.count_cons, hne]

theorem not_mem_eraseP_unique {α : Type} [DecidableEq α] {p : α → Bool} {x : α}
    {l : List α} (hall : ∀ y ∈ l, p y = true → y = x) (hc : l.count x = 1)
    (hp : p x = true) : x ∉ l.eraseP p := by
  induction l with
  | nil => simp
  | cons a l ih =>
    rw [List.eraseP_cons]
    cases ha : p a
    · have hax : ¬ a = x := fun h => by rw [h] at ha; rw [ha] at hp; cases hp
      simp only [cond_false, List.mem_cons]
      rintro (rfl | hmem)
      · exact hax rfl
      · have hc2 : l.count x = 1 := by
          rw [List.count_cons] at hc
          simpa [hax] using hc
        exact ih (fun y hy hpy => hall y (List.mem_cons_of_mem _ hy) hpy) hc2 hmem
    · have hax : a = x := hall a (List.mem_cons_self _ _) ha
      subst hax
      have hc2 : l.count a = 0 := by
        rw [List.count_cons] at hc
        simpa using hc
      simpa using (List.count_eq_zero.1 hc2)

theorem archivePass_calls (cur : List Task) (snap : List TaskEntry) :
    ∀ store ch, (archivePass cur snap store ch).2.2 =
      (snap.filter (fun s => !(keptInCur cur s))).map (fun s => s.itemId) := by
  induction snap with
  | nil => intro store ch; simp [archivePass]
  | cons s snap ih =>
    intro store ch
    rw [archivePass]
    cases hk : keptInCur cur s
    · simp [hk, List.filter_cons, ih]
    · simp [hk, List.filter_cons, ih]

theorem archivePass_store_sublist (cur : List Task) (snap : List TaskEntry) :
    ∀ store ch, ((archivePass cur snap store ch).1).Sublist store := by
  induction snap with
  | nil => intro store ch; simp [archivePass]
  | cons s snap ih =>
    intro store ch
    rw [archivePass]
    cases hk : keptInCur cur s
    · rw [if_neg (by simp [hk])]
      simp only
      split
      · exact (ih _ _).trans (List.eraseP_sublist _)
      · exact ih _ _
    · rw [if_pos rfl]
      exact ih _ _

theorem archivePass_all_kept (cur : List Task) (snap : List TaskEntry)
    (h : ∀ s ∈ snap, keptInCur cur s = true) :
    ∀ store ch, archivePass cur snap store ch = (store, ch, []) := by
  induction snap with
  | nil => intro store ch; rfl
  | cons s snap ih =>
    intro store ch
    rw [archivePass, if_pos (h s (List.mem_cons_self _ _))]
    exact ih (fun x hx => h x (List.mem_cons_of_mem _ hx)) store ch

theorem archivePass_mem_of_itemId_ne (cur : List Task) (x : TaskEntry) :
    ∀ (snap store : List TaskEntry) (ch : Bool), x ∈ store →
      (∀ s ∈ snap, keptInCur cur s = false → x.itemId ≠ s.itemId) →
      x ∈ (archivePass cur snap store ch).1 := by
  intro snap
  induction snap with
  | nil => intro store ch hx _; simpa [archivePass] using hx
  | cons s snap ih =>
    intro store ch hx hs
    rw [archivePass]
    cases hk : keptInCur cur s
    · simp only [Bool.false_eq_true, if_false]
      have hne : x.itemId ≠ s.itemId := hs s (List.mem_cons_self _ _) hk
      have hmem2 : x ∈ store.eraseP (fun y => y.itemId == s.itemId) :=
        mem_eraseP_of_pred_false hx (by simp [hne])
      split
      · exact ih _ _ hmem2 (fun y hy hky => hs y (List.mem_cons_of_mem _ hy) hky)
      · exact ih _ _ hx (fun y hy hky => hs y (List.mem_cons_of_mem _ hy) hky)
    · simp only [if_true]
      exact ih _ _ hx (fun y hy hky => hs y (List.mem_cons_of_mem _ hy) hky)

theorem archivePass_not_mem (cur : List Task) (x : TaskEntry)
    (hkx : keptInCur cur x = false) :
    ∀ (snap store : List TaskEntry) (ch : Bool), x ∈ snap →
      (∀ s ∈ snap, s.itemId = x.itemId → s = x) →
      (∀ y ∈ store, y.itemId = x.itemId → y = x) →
      store.count x = 1 →
      x ∉ (archivePass cur snap store ch).1 := by
  intro snap
  induction snap with
  | nil => intro store ch hx; simp at hx
  | cons s snap ih =>
    intro store ch hx hsnap hstore hcount
    by_cases hsx : s = x
    · subst hsx
      rw [archivePass, if_neg (by simp [hkx])]
      have hmem : s ∈ store := List.count_pos_iff.1 (by rw [hcount]; exact Nat.one_pos)
      have hfound : store.any (fun y => y.itemId == s.itemId) = true :=
        List.any_eq_true.2 ⟨s, hmem, by simp⟩
      simp only [hfound, if_true]
      intro hcontra
      have hsub := archivePass_store_sublist cur snap
        (store.eraseP (fun y => y.itemId == s.itemId)) (ch || true)
      have hmem2 := hsub.subset hcontra
      exact not_mem_eraseP_unique
        (fun y hy hpy => hstore y hy (by simpa using hpy)) hcount (by simp) hmem2
    · have hx2 : x ∈ snap := by
        rcases List.mem_cons.1 hx with rfl | h2
        · exact absurd rfl hsx
        · exact h2
      have hsid : s.itemId ≠ x.itemId := fun h =>
        hsx (hsnap s (List.mem_cons_self _ _) h)
      rw [archivePass]
      cases hk : keptInCur cur s
      · simp only [Bool.false_eq_true, if_false]
        have hpx : (fun y => y.itemId == s.itemId) x = false := by
          simp
          exact fun h => hsid h.symm
        split
        · refine ih _ _ hx2 (fun y hy => hsnap y (List.mem_cons_of_mem _ hy))
            (fun y hy => hstore y ((List.eraseP_sublist _).subset hy)) ?_
          rw [count_eraseP_of_pred_false store hpx]
          exact hcount
        · exact ih _ _ hx2 (fun y hy => hsnap y (List.mem_cons_of_mem _ hy))
            hstore hcount
      · simp only [if_true]
        exact ih _ _ hx2 (fun y hy => hsnap y (List.mem_cons_of_mem _ hy))
          hstore hcount

theorem applyResults_fst (fileName : String) (results : List PubResult) :
    ∀ (ts : List Task) (store : List TaskEntry) (ch : Bool),
      (applyResults fileName results ts store ch).1 =
        store ++ pushedEntries fileName results ts := by
  intro ts
  induction ts with
  | nil => intro store ch; simp [applyResults, pushedEntries]
  | cons task rest ih =>
    intro store ch
    rw [applyResults, pushedEntries]
    rcases hr : results.find? (fun r => r.hash == task.hash) with _ | r <;>
      simp only [hr]
    · rw [ih]
    · rcases r with ⟨rh, ri⟩
      rcases ri with _ | i <;> simp only
      · rw [ih]
      · by_cases hi : i ≠ ""
        · rw [if_pos hi, if_pos hi]
          by_cases hh : task.hash ≠ ""
          · rw [if_pos hh, if_pos hh, ih]
            simp
          · rw [if_neg hh, if_neg hh, ih]
        · rw [if_neg hi, if_neg hi, ih]

theorem pushedEntries_sound (fileName : String) (results : List PubResult) :
    ∀ (ts : List Task) (y : TaskEntry), y ∈ pushedEntries fileName results ts →
      y.file = fileName ∧ y.itemId ≠ "" ∧
      (∃ t ∈ ts, y.hash = t.hash ∧ t.hash ≠ "") ∧
      (∃ r ∈ results, r.itemId = some y.itemId) := by
  intro ts
  induction ts with
  | nil => intro y hy; simp [pushedEntries] at hy
  | cons task rest ih =>
    intro y hy
    rw [pushedEntries] at hy
    rcases hr : results.find? (fun r => r.hash == task.hash) with _ | r <;>
      rw [hr] at hy
    · rcases ih y hy with ⟨h1, h2, ⟨t, ht, h3⟩, h4⟩
      exact ⟨h1, h2, ⟨t, List.mem_cons_of_mem _ ht, h3⟩, h4⟩
    · rcases r with ⟨rh, ri⟩
      rcases ri with _ | i
      · rcases ih y hy with ⟨h1, h2, ⟨t, ht, h3⟩, h4⟩
        exact ⟨h1, h2, ⟨t, List.mem_cons_of_mem _ ht, h3⟩, h4⟩
      · simp only at hy
        by_cases hi : i ≠ ""
        · rw [if_pos hi] at hy
          by_cases hh : task.hash ≠ ""
          · rw [if_pos hh] at hy
            rcases List.mem_cons.1 hy with rfl | hy2
            · refine ⟨rfl, hi, ⟨task, List.mem_cons_self _ _, rfl, hh⟩,
                ⟨⟨rh, some i⟩, List.mem_of_find?_eq_some hr, rfl⟩⟩
            · rcases ih y hy2 with ⟨h1, h2, ⟨t, ht, h3⟩, h4⟩
              exact ⟨h1, h2, ⟨t, List.mem_cons_of_mem _ ht, h3⟩, h4⟩
          · rw [if_neg hh] at hy
            rcases ih y hy with ⟨h1, h2, ⟨t, ht, h3⟩, h4⟩
            exact ⟨h1, h2, ⟨t, List.mem_cons_of_mem _ ht, h3⟩, h4⟩
        · rw [if_neg hi] at hy
          rcases ih y hy with ⟨h1, h2, ⟨t, ht, h3⟩, h4⟩
          exact ⟨h1, h2, ⟨t, List.mem_cons_of_mem _ ht, h3⟩, h4⟩

theorem pushedEntries_complete (fileName : String) (results : List PubResult) :
    ∀ (ts : List Task) (t : Task), t ∈ ts → t.hash ≠ "" →
      resultOkFor results t = true →
      ∃ y ∈ pushedEntries fileName results ts, y.hash = t.hash := by
  intro ts
  induction ts with
  | nil => intro t ht; simp at ht
  | cons task rest ih =>
    intro t ht hh hok
    rw [pushedEntries]
    rcases List.mem_cons.1 ht with rfl | ht2
    · rw [resultOkFor] at hok
      rcases hr : results.find? (fun r => r.hash == t.hash) with _ | r <;>
        rw [hr] at hok <;> simp only [hr]
      · cases hok
      · rcases r with ⟨rh, ri⟩
        rcases ri with _ | i <;> simp only at hok ⊢
        · cases hok
        · have hi : i ≠ "" := by simpa using hok
          rw [if_pos hi, if_pos hh]
          exact ⟨⟨t.hash, i, fileName⟩, List.mem_cons_self _ _, rfl⟩
    · have hrec := ih t ht2 hh hok
      rcases hrec with ⟨y, hy, hyh⟩
      rcases hr : results.find? (fun r => r.hash == task.hash) with _ | r <;>
        simp only [hr]
      · exact ⟨y, hy, hyh⟩
      · rcases r with ⟨rh, ri⟩
        rcases ri with _ | i <;> simp only
        · exact ⟨y, hy, hyh⟩
        · by_cases hi : i ≠ ""
          · rw [if_pos hi]
            by_cases hth : task.hash ≠ ""
            · rw [if_pos hth]
              exact ⟨y, List.mem_cons_of_mem _ hy, hyh⟩
            · rw [if_neg hth]
              exact ⟨y, hy, hyh⟩
          · rw [if_neg hi]
            exact ⟨y, hy, hyh⟩

theorem pushedEntries_hashes_sublist (fileName : String) (results : List PubResult) :
    ∀ ts : List Task, ((pushedEntries fileName results ts).map
      (fun y => y.hash)).Sublist (ts.map (fun t => t.hash)) := by
  intro ts
  induction ts with
  | nil => simp [pushedEntries]
  | cons task rest ih =>
    rw [pushedEntries]
    split
    · split
      · split
        · split
          · rw [List.map_cons, List.map_cons]
            exact List.Sublist.cons₂ _ ih
          · exact ih.trans (List.sublist_cons_self _ _)
        · exact ih.trans (List.sublist_cons_self _ _)
      · exact ih.trans (List.sublist_cons_self _ _)
    · exact ih.trans (List.sublist_cons_self _ _)

theorem reconcileCore_store (p : Provider) (f : String) (cur : List Task)
    (stored : List TaskEntry) :
    (reconcileCore p f cur stored).store =
      (archivePass cur (stored.filter (fun t => t.file == f))
        (stored ++ pushedEntries f
          (p.publishTasks (tasksToPublish (stored.filter (fun t => t.file == f)) cur))
          (tasksToPublish (stored.filter (fun t => t.file == f)) cur))
        ((applyResults f
          (p.publishTasks (tasksToPublish (stored.filter (fun t => t.file == f)) cur))
          (tasksToPublish (stored.filter (fun t => t.file == f)) cur) stored false).2)).1 := by
  rw [reconcileCore]
  simp only
  split
  · rw [applyResults_fst]
  · rename_i hlen
    have hnil : tasksToPublish (stored.filter (fun t => t.file == f)) cur = [] := by
      rcases hc : tasksToPublish (stored.filter (fun t => t.file == f)) cur with _ | ⟨a, l⟩
      · rfl
      · rw [hc] at hlen
        simp at hlen
    rw [hnil]
    simp [applyResults, pushedEntries]

theorem reconcileCore_archiveCalls (p : Provider) (f : String) (cur : List Task)
    (stored : List TaskEntry) :
    (reconcileCore p f cur stored).archiveCalls =
      ((stored.filter (fun t => t.file == f)).filter
        (fun s => !(keptInCur cur s))).map (fun s => s.itemId) := by
  rw [reconcileCore]
  simp only
  split <;> rw [archivePass_calls]

theorem reconcileCore_publishCalls (p : Provider) (f : String) (cur : List Task)
    (stored : List TaskEntry) :
    (reconcileCore p f cur stored).publishCalls =
      if 0 < (tasksToPublish (stored.filter (fun t => t.file == f)) cur).length
      then [tasksToPublish (stored.filter (fun t => t.file == f)) cur] else [] := by
  rw [reconcileCore]
  simp only
  split <;> simp_all

theorem reconcileCore_noop (p : Provider) (f : String) (cur : List Task)
    (stored : List TaskEntry)
    (h1 : tasksToPublish (stored.filter (fun t => t.file == f)) cur = [])
    (h2 : ∀ s ∈ stored.filter (fun t => t.file == f), keptInCur cur s = true) :
    reconcileCore p f cur stored =
      { store := stored, publishCalls := [], archiveCalls := []
        stateChanged := false, wrote := false } := by
  rw [reconcileCore]
  simp only [h1, List.length_nil, Nat.lt_irrefl, if_false]
  rw [archivePass_all_kept cur _ h2]

theorem itemId_inj_of_nodup_map {l : List TaskEntry}
    (h : (l.map (fun e => e.itemId)).Nodup) :
    ∀ x ∈ l, ∀ y ∈ l, x.itemId = y.itemId → x = y := by
  have hp : l.Pairwise (fun a b => a.itemId ≠ b.itemId) :=
    List.pairwise_map.1 h
  have hsym : Symmetric (fun a b : TaskEntry => a.itemId ≠ b.itemId) :=
    fun a b hab he => hab he.symm
  intro x hx y hy hxy
  by_contra hne
  exact List.Pairwise.forall hsym hp hx hy hne hxy

theorem count_map_itemId_zero {l : List TaskEntry} {i : String}
    (h : ∀ x ∈ l, x.itemId ≠ i) : (l.map (fun x => x.itemId)).count i = 0 := by
  rw [List.count_eq_zero]
  intro hmem
  rcases List.mem_map.1 hmem with ⟨x, hx, hxi⟩
  exact h x hx hxi

theorem count_map_itemId_one {l : List TaskEntry} {e : TaskEntry}
    (hall : ∀ x ∈ l, x.itemId = e.itemId → x = e) (hc : l.count e = 1) :
    (l.map (fun x => x.itemId)).count e.itemId = 1 := by
  induction l with
  | nil => simp at hc
  | cons a l ih =>
    rw [List.map_cons, List.count_cons]
    by_cases ha : a = e
    · subst ha
      rw [List.count_cons] at hc
      have hc0 : l.count a = 0 := by simpa using hc
      have hz : ∀ x ∈ l, x.itemId ≠ a.itemId := by
        intro x hx hxi
        have hxa : x = a := hall x (List.mem_cons_of_mem _ hx) hxi
        rw [← hxa] at hc0
        exact absurd (List.count_eq_zero.1 hc0) (fun hn => hn hx)
      rw [count_map_itemId_zero hz]
      simp
    · have hai : a.itemId ≠ e.itemId := fun hi =>
        ha (hall a (List.mem_cons_self _ _) hi)
      rw [List.count_cons] at hc
      have hc1 : l.count e = 1 := by
        simpa [ha] using hc
      rw [ih (fun x hx => hall x (List.mem_cons_of_mem _ hx)) hc1]
      simp [hai]

theorem keptInCur_eq_false {cur : List Task} {e : TaskEntry}
    (h : ∀ c ∈ cur, c.hash ≠ e.hash) : keptInCur cur e = false := by
  have hn : List.find? (fun c => c.hash == e.hash) cur = none :=
    List.find?_eq_none.2 (fun c hc => by simp [h c hc])
  rw [keptInCur, hn]
  rfl

theorem keptInCur_eq_true {cur : List Task} {e : TaskEntry} {t : Task}
    (ht : t ∈ cur) (hh : t.hash = e.hash) : keptInCur cur e = true := by
  rw [keptInCur, List.find?_isSome]
  exact ⟨t, ht, by simp [hh]⟩

end CodeQueue

/-! ## Claim theorems (continued in source order of the development) -/

namespace CodeQueue

/-- C4 counterexample: with stored entries `{h1, A, f}` and `{h2, A, f}` and a
scan still containing `h1`, the entry `{h2, A, f}` (hash gone) is archived
with exactly one call for `A`, but removal searches the store for the first
entry with `itemId` `A` and removes `{h1, A, f}` instead — the archived entry
is still present in stored state afterwards, contradicting the claim. -/
theorem eventual_archive_cex :
    (reconcileCore trivialProvider "f"
        [⟨"t", "general", "f", 1, "", "h1"⟩]
        [⟨"h1", "A", "f"⟩, ⟨"h2", "A", "f"⟩]).archiveCalls = ["A"] ∧
    (⟨"h2", "A", "f"⟩ : TaskEntry) ∈ (reconcileCore trivialProvider "f"
        [⟨"t", "general", "f", 1, "", "h1"⟩]
        [⟨"h1", "A", "f"⟩, ⟨"h2", "A", "f"⟩]).store := by
  decide

/-- C4 amended: for a stored entry of the reconciled file whose hash is absent
from the scan, reconciliation issues exactly one archive call for its
`itemId`, and the entry is absent from stored state afterwards — regardless of
the archive call's outcome, which the reconciler never consults — provided the
entry's `itemId` identifies it uniquely in the stored sequence and no publish
result reuses that `itemId` (removal is by first `itemId` match, so a
duplicated `itemId` can remove a different entry and leave this one behind). -/
theorem eventual_archive_amended (p : Provider) (f : String) (cur : List Task)
    (stored : List TaskEntry) (e : TaskEntry)
    (he : e ∈ stored) (hef : e.file = f)
    (hgone : ∀ c ∈ cur, c.hash ≠ e.hash)
    (huniq : ∀ x ∈ stored, x.itemId = e.itemId → x = e)
    (hcount : stored.count e = 1)
    (hfresh : ∀ r ∈ p.publishTasks
        (tasksToPublish (stored.filter (fun s => s.file == f)) cur),
      itemIdClash r e = false) :
    (reconcileCore p f cur stored).archiveCalls.count e.itemId = 1 ∧
    e ∉ (reconcileCore p f cur stored).store := by
  have hkept : keptInCur cur e = false := keptInCur_eq_false hgone
  have hsnapmem : e ∈ stored.filter (fun s => s.file == f) :=
    List.mem_filter.2 ⟨he, by simp [hef]⟩
  have hsnapsub : ∀ x ∈ stored.filter (fun s => s.file == f), x ∈ stored :=
    fun x hx => (List.filter_sublist stored).subset hx
  have hpushed : ∀ y ∈ pushedEntries f
      (p.publishTasks (tasksToPublish (stored.filter (fun s => s.file == f)) cur))
      (tasksToPublish (stored.filter (fun s => s.file == f)) cur),
      y.itemId ≠ e.itemId := by
    intro y hy hyi
    rcases pushedEntries_sound _ _ _ y hy with ⟨_, _, _, r, hr, hri⟩
    have := hfresh r hr
    rw [itemIdClash, hri] at this
    simp [hyi] at this
  constructor
  · rw [reconcileCore_archiveCalls]
    have hmemf : e ∈ (stored.filter (fun s => s.file == f)).filter
        (fun s => !(keptInCur cur s)) :=
      List.mem_filter.2 ⟨hsnapmem, by simp [hkept]⟩
    have hcf : ((stored.filter (fun s => s.file == f)).filter
        (fun s => !(keptInCur cur s))).count e = 1 := by
      have hle : ((stored.filter (fun s => s.file == f)).filter
          (fun s => !(keptInCur cur s))).count e ≤ stored.count e :=
        ((List.filter_sublist _).trans (List.filter_sublist _)).count_le e
      have hge : 0 < ((stored.filter (fun s => s.file == f)).filter
          (fun s => !(keptInCur cur s))).count e :=
        List.count_pos_iff.2 hmemf
      omega
    exact count_map_itemId_one
      (fun x hx => huniq x (hsnapsub x (List.mem_of_mem_filter hx))) hcf
  · rw [reconcileCore_store]
    apply archivePass_not_mem cur e hkept _ _ _ hsnapmem
      (fun s hs => huniq s (hsnapsub s hs))
    · intro y hy
      rcases List.mem_append.1 hy with hy2 | hy2
      · exact huniq y hy2
      · exact fun hyi => absurd hyi (hpushed y hy2)
    · rw [List.count_append, hcount]
      have h0 : (pushedEntries f
          (p.publishTasks (tasksToPublish (stored.filter (fun s => s.file == f)) cur))
          (tasksToPublish (stored.filter (fun s => s.file == f)) cur)).count e = 0 := by
        rw [List.count_eq_zero]
        intro hmem
        exact hpushed e hmem rfl
      omega

theorem eventual_archive_amended_witness :
    (reconcileCore trivialProvider "f" []
        [⟨"h", "A", "f"⟩]).archiveCalls.count "A" = 1 ∧
    (⟨"h", "A", "f"⟩ : TaskEntry) ∉ (reconcileCore trivialProvider "f" []
        [⟨"h", "A", "f"⟩]).store :=
  eventual_archive_amended trivialProvider "f" [] _ ⟨"h", "A", "f"⟩
    (by decide) rfl (by decide) (by decide) (by decide) (by decide)

/-- C6 counterexample: two tasks in one batch sharing a hash are both
published and both matched back to the first result with that hash, and each
appends its own bookkeeping entry: starting from an empty store (which
satisfies the per-hash uniqueness invariant) the pass leaves two entries with
the same hash in the file's partition, so the invariant is not preserved and
the later duplicate does add a bookkeeping entry. -/
theorem per_hash_uniqueness_cex :
    atMostOnePerHash "f" ([] : List TaskEntry) ∧
    ¬ atMostOnePerHash "f" (reconcileCore
        ⟨fun _ => [⟨"h", some "A"⟩, ⟨"h", some "B"⟩], fun _ => true⟩ "f"
        [⟨"t1", "general", "f", 1, "", "h"⟩, ⟨"t2", "general", "f", 2, "", "h"⟩]
        []).store := by
  constructor
  · simp [atMostOnePerHash]
  · rw [atMostOnePerHash]
    decide

/-- C6 amended: the per-hash uniqueness invariant is preserved by a
reconciliation pass whenever the hashes of the scanned batch are pairwise
distinct (as they are when the batch has no duplicate markers); each published
task is matched back to the first result carrying its hash, so when two batch
tasks do share a hash both bind to the first result's `itemId` and each adds
its own entry, breaking the invariant. -/
theorem per_hash_uniqueness_amended (p : Provider) (f : String) (cur : List Task)
    (stored : List TaskEntry)
    (h1 : atMostOnePerHash f stored)
    (h2 : (cur.map (fun t => t.hash)).Nodup) :
    atMostOnePerHash f (reconcileCore p f cur stored).store := by
  rw [atMostOnePerHash] at h1 ⊢
  have hsub : ((reconcileCore p f cur stored).store.filter
      (fun e => e.file == f)).Sublist
      ((stored ++ pushedEntries f
        (p.publishTasks (tasksToPublish (stored.filter (fun t => t.file == f)) cur))
        (tasksToPublish (stored.filter (fun t => t.file == f)) cur)).filter
        (fun e => e.file == f)) := by
    rw [reconcileCore_store]
    exact List.Sublist.filter _ (archivePass_store_sublist _ _ _ _)
  refine ((hsub.map (fun e => e.hash)).nodup ?_)
  rw [List.filter_append]
  have hpf : (pushedEntries f
      (p.publishTasks (tasksToPublish (stored.filter (fun t => t.file == f)) cur))
      (tasksToPublish (stored.filter (fun t => t.file == f)) cur)).filter
      (fun e => e.file == f) =
      pushedEntries f
        (p.publishTasks (tasksToPublish (stored.filter (fun t => t.file == f)) cur))
        (tasksToPublish (stored.filter (fun t => t.file == f)) cur) :=
    List.filter_eq_self.2 (fun y hy => by
      simp [(pushedEntries_sound _ _ _ y hy).1])
  rw [hpf, List.map_append, List.nodup_append]
  refine ⟨h1, ?_, ?_⟩
  · have hs1 := pushedEntries_hashes_sublist f
      (p.publishTasks (tasksToPublish (stored.filter (fun t => t.file == f)) cur))
      (tasksToPublish (stored.filter (fun t => t.file == f)) cur)
    have hs2 : ((tasksToPublish (stored.filter (fun t => t.file == f)) cur).map
        (fun t => t.hash)).Sublist (cur.map (fun t => t.hash)) :=
      List.Sublist.map _ (List.filter_sublist _)
    exact (hs1.trans hs2).nodup h2
  · intro a ha hb
    rcases List.mem_map.1 ha with ⟨s, hs, rfl⟩
    rcases List.mem_map.1 hb with ⟨y, hy, hyh⟩
    rcases (pushedEntries_sound _ _ _ y hy).2.2.1 with ⟨t, ht, hth, _⟩
    have hne := (mem_tasksToPublish ht).2 s hs
    rw [← hyh, hth] at hne
    exact hne rfl

/-- C5: with no stored entries for the file and a batch of three tasks with
distinct hashes, when the provider's result set reports an `itemId` for the
first and third hashes but none for the second, the pass appends entries for
exactly those two hashes, and a second pass over the same three tasks marks
exactly the middle task for creation (its hash is still absent from storage). -/
theorem partial_failure_resilience (p p2 : Provider) (f : String)
    (tA tB tC : Task) (stored : List TaskEntry) (iA iC : String)
    (hstored : ∀ e ∈ stored, e.file ≠ f)
    (hAB : tA.hash ≠ tB.hash) (hAC : tA.hash ≠ tC.hash) (hBC : tB.hash ≠ tC.hash)
    (hA : tA.hash ≠ "") (hB : tB.hash ≠ "") (hC : tC.hash ≠ "")
    (hiA : iA ≠ "") (hiC : iC ≠ "")
    (hres : p.publishTasks [tA, tB, tC] =
      [⟨tA.hash, some iA⟩, ⟨tB.hash, none⟩, ⟨tC.hash, some iC⟩]) :
    (reconcileCore p f [tA, tB, tC] stored).store =
      stored ++ [⟨tA.hash, iA, f⟩, ⟨tC.hash, iC, f⟩] ∧
    (reconcileCore p2 f [tA, tB, tC]
      (reconcileCore p f [tA, tB, tC] stored).store).publishCalls = [[tB]] := by
  have bAB : (tA.hash == tB.hash) = false := by simp [hAB]
  have bAC : (tA.hash == tC.hash) = false := by simp [hAC]
  have bBC : (tB.hash == tC.hash) = false := by simp [hBC]
  have bCB : (tC.hash == tB.hash) = false := by simp [hBC.symm]
  have hsnap : stored.filter (fun t => t.file == f) = [] :=
    List.filter_eq_nil_iff.2 (fun e he => by simp [hstored e he])
  have htoPub : tasksToPublish (stored.filter (fun t => t.file == f)) [tA, tB, tC] =
      [tA, tB, tC] := by
    rw [hsnap]
    simp [tasksToPublish]
  have hpush : pushedEntries f
      [⟨tA.hash, some iA⟩, ⟨tB.hash, none⟩, ⟨tC.hash, some iC⟩] [tA, tB, tC] =
      [⟨tA.hash, iA, f⟩, ⟨tC.hash, iC, f⟩] := by
    simp [pushedEntries, List.find?, bAB, bAC, bBC, hA, hC, hiA, hiC]
  have hstore1 : (reconcileCore p f [tA, tB, tC] stored).store =
      stored ++ [⟨tA.hash, iA, f⟩, ⟨tC.hash, iC, f⟩] := by
    rw [reconcileCore_store, htoPub, hres, hpush, hsnap]
    rfl
  refine ⟨hstore1, ?_⟩
  have hsnap2 : (stored ++ [(⟨tA.hash, iA, f⟩ : TaskEntry), ⟨tC.hash, iC, f⟩]).filter
      (fun t => t.file == f) = [⟨tA.hash, iA, f⟩, ⟨tC.hash, iC, f⟩] := by
    rw [List.filter_append, hsnap]
    simp
  have htoPub2 : tasksToPublish
      [(⟨tA.hash, iA, f⟩ : TaskEntry), ⟨tC.hash, iC, f⟩] [tA, tB, tC] = [tB] := by
    simp [tasksToPublish, List.find?, bAB, bCB, bAC]
  rw [hstore1, reconcileCore_publishCalls, hsnap2, htoPub2]
  simp

theorem partial_failure_resilience_witness :
    (reconcileCore ⟨fun _ => [⟨"hA", some "iA"⟩, ⟨"hB", none⟩, ⟨"hC", some "iC"⟩],
        fun _ => true⟩ "f"
      [⟨"a", "general", "f", 1, "", "hA"⟩, ⟨"b", "general", "f", 2, "", "hB"⟩,
        ⟨"c", "general", "f", 3, "", "hC"⟩] []).store =
      [] ++ [⟨"hA", "iA", "f"⟩, ⟨"hC", "iC", "f"⟩] ∧
    (reconcileCore trivialProvider "f"
      [⟨"a", "general", "f", 1, "", "hA"⟩, ⟨"b", "general", "f", 2, "", "hB"⟩,
        ⟨"c", "general", "f", 3, "", "hC"⟩]
      (reconcileCore ⟨fun _ => [⟨"hA", some "iA"⟩, ⟨"hB", none⟩, ⟨"hC", some "iC"⟩],
          fun _ => true⟩ "f"
        [⟨"a", "general", "f", 1, "", "hA"⟩, ⟨"b", "general", "f", 2, "", "hB"⟩,
          ⟨"c", "general", "f", 3, "", "hC"⟩] []).store).publishCalls =
      [[⟨"b", "general", "f", 2, "", "hB"⟩]] :=
  partial_failure_resilience
    ⟨fun _ => [⟨"hA", some "iA"⟩, ⟨"hB", none⟩, ⟨"hC", some "iC"⟩], fun _ => true⟩
    trivialProvider "f"
    ⟨"a", "general", "f", 1, "", "hA"⟩ ⟨"b", "general", "f", 2, "", "hB"⟩
    ⟨"c", "general", "f", 3, "", "hC"⟩ [] "iA" "iC"
    (by decide) (by decide) (by decide) (by decide) (by decide) (by decide)
    (by decide) (by decide) (by decide) rfl

/-- C3 counterexample: with stored entries `{h1, A, f}` and `{h2, A, f}` and a
scan containing only `h1`, the first run issues no creations (its only
operation, archiving `{h2, A, f}`, resolves normally) but removal by first
`itemId` match deletes the live entry `{h1, A, f}`; the second run with the
identical scan therefore issues a creation call for `h1` and another archive
call for `A`, contradicting idempotence as claimed. -/
theorem idempotence_cex :
    (reconcileCore trivialProvider "f" [⟨"t", "general", "f", 1, "", "h1"⟩]
      [⟨"h1", "A", "f"⟩, ⟨"h2", "A", "f"⟩]).publishCalls = [] ∧
    (reconcileCore trivialProvider "f" [⟨"t", "general", "f", 1, "", "h1"⟩]
      ((reconcileCore trivialProvider "f" [⟨"t", "general", "f", 1, "", "h1"⟩]
        [⟨"h1", "A", "f"⟩, ⟨"h2", "A", "f"⟩]).store)).publishCalls =
      [[⟨"t", "general", "f", 1, "", "h1"⟩]] ∧
    (reconcileCore trivialProvider "f" [⟨"t", "general", "f", 1, "", "h1"⟩]
      ((reconcileCore trivialProvider "f" [⟨"t", "general", "f", 1, "", "h1"⟩]
        [⟨"h1", "A", "f"⟩, ⟨"h2", "A", "f"⟩]).store)).archiveCalls = ["A"] := by
  decide

/-- C3 amended: running reconcile twice with an identical scan is idempotent —
the second run issues zero creation calls and zero archive calls, does not
mark the store dirty, does not write it, and leaves the store unchanged —
provided the first run's creations all succeed, the stored entries' `itemId`s
are pairwise distinct, and the provider returns fresh `itemId`s not present in
the store (with a duplicated or reused `itemId`, removal by first `itemId`
match can delete the wrong entry and resurrect work on the second run). -/
theorem idempotence_amended (p p2 : Provider) (f : String) (cur : List Task)
    (stored : List TaskEntry)
    (hids : (stored.map (fun e => e.itemId)).Nodup)
    (hh : ∀ t ∈ cur, t.hash ≠ "")
    (hsucc : ∀ t ∈ tasksToPublish (stored.filter (fun s => s.file == f)) cur,
      resultOkFor (p.publishTasks
        (tasksToPublish (stored.filter (fun s => s.file == f)) cur)) t = true)
    (hfresh : ∀ r ∈ p.publishTasks
        (tasksToPublish (stored.filter (fun s => s.file == f)) cur),
      ∀ e ∈ stored, itemIdClash r e = false) :
    reconcileCore p2 f cur (reconcileCore p f cur stored).store =
      { store := (reconcileCore p f cur stored).store, publishCalls := []
        archiveCalls := [], stateChanged := false, wrote := false } := by
  have hinj := itemId_inj_of_nodup_map hids
  have hnd : stored.Nodup := List.Nodup.of_map _ hids
  have hpushedId : ∀ y ∈ pushedEntries f
      (p.publishTasks (tasksToPublish (stored.filter (fun s => s.file == f)) cur))
      (tasksToPublish (stored.filter (fun s => s.file == f)) cur),
      ∀ e ∈ stored, y.itemId ≠ e.itemId := by
    intro y hy e he hyi
    rcases (pushedEntries_sound _ _ _ y hy).2.2.2 with ⟨r, hr, hri⟩
    have hcl := hfresh r hr e he
    rw [itemIdClash, hri] at hcl
    simp [hyi] at hcl
  have hF1 : ∀ t ∈ cur, ∃ x ∈ (reconcileCore p f cur stored).store,
      x.file = f ∧ x.hash = t.hash := by
    intro t ht
    rw [reconcileCore_store]
    rcases hfind : (stored.filter (fun s => s.file == f)).find?
        (fun s => s.hash == t.hash) with _ | e
    · have htp : t ∈ tasksToPublish (stored.filter (fun s => s.file == f)) cur := by
        rw [tasksToPublish, List.mem_filter]
        exact ⟨ht, by simp [hfind]⟩
      rcases pushedEntries_complete f _ _ t htp (hh t ht) (hsucc t htp) with
        ⟨y, hy, hyh⟩
      refine ⟨y, ?_, (pushedEntries_sound _ _ _ y hy).1, hyh⟩
      apply archivePass_mem_of_itemId_ne
      · exact List.mem_append.2 (Or.inr hy)
      · intro s hs _
        exact hpushedId y hy s ((List.filter_sublist _).subset hs)
    · have hes : e ∈ stored.filter (fun s => s.file == f) :=
        List.mem_of_find?_eq_some hfind
      have heh : e.hash = t.hash := by simpa using List.find?_some hfind
      have hestored : e ∈ stored := (List.filter_sublist _).subset hes
      have hefile : e.file = f := by simpa using (List.mem_filter.1 hes).2
      refine ⟨e, ?_, hefile, heh⟩
      apply archivePass_mem_of_itemId_ne
      · exact List.mem_append.2 (Or.inl hestored)
      · intro s hs hksf heis
        have hsstored : s ∈ stored := (List.filter_sublist _).subset hs
        have hse : e = s := hinj e hestored s hsstored heis
        rw [← hse, keptInCur_eq_true ht heh.symm] at hksf
        cases hksf
  have hF2 : ∀ x ∈ (reconcileCore p f cur stored).store, x.file = f →
      keptInCur cur x = true := by
    intro x hx hxf
    cases hq : keptInCur cur x
    · exfalso
      rw [reconcileCore_store] at hx
      have hx1 : x ∈ stored ++ pushedEntries f
          (p.publishTasks (tasksToPublish (stored.filter (fun s => s.file == f)) cur))
          (tasksToPublish (stored.filter (fun s => s.file == f)) cur) :=
        (archivePass_store_sublist _ _ _ _).subset hx
      rcases List.mem_append.1 hx1 with hxs | hxp
      · have hxsnap : x ∈ stored.filter (fun s => s.file == f) :=
          List.mem_filter.2 ⟨hxs, by simp [hxf]⟩
        refine absurd hx (archivePass_not_mem cur x hq _ _ _ hxsnap ?_ ?_ ?_)
        · intro s hs hsi
          exact hinj s ((List.filter_sublist _).subset hs) x hxs hsi
        · intro y hy hyi
          rcases List.mem_append.1 hy with hys | hyp
          · exact hinj y hys x hxs hyi
          · exact absurd hyi (hpushedId y hyp x hxs)
        · rw [List.count_append, List.count_eq_one_of_mem hnd hxs]
          have h0 : (pushedEntries f
              (p.publishTasks (tasksToPublish (stored.filter (fun s => s.file == f)) cur))
              (tasksToPublish (stored.filter (fun s => s.file == f)) cur)).count x = 0 :=
            List.count_eq_zero.2 (fun hmem => hpushedId x hmem x hxs rfl)
          omega
      · rcases (pushedEntries_sound _ _ _ x hxp).2.2.1 with ⟨t, ht, hth, _⟩
        have htc : t ∈ cur := (mem_tasksToPublish ht).1
        rw [keptInCur_eq_true htc hth.symm] at hq
        cases hq
    · rfl
  apply reconcileCore_noop
  · rw [tasksToPublish]
    apply List.filter_eq_nil_iff.2
    intro t ht hnone
    rcases hF1 t ht with ⟨x, hx, hxf, hxh⟩
    have hmemf : x ∈ (reconcileCore p f cur stored).store.filter
        (fun t => t.file == f) :=
      List.mem_filter.2 ⟨hx, by simp [hxf]⟩
    have hpred : (x.hash == t.hash) = true := by simp [hxh]
    have hsome : (((reconcileCore p f cur stored).store.filter
        (fun t => t.file == f)).find? (fun s => s.hash == t.hash)).isSome = true :=
      List.find?_isSome.2 ⟨x, hmemf, hpred⟩
    rw [Option.isNone_iff_eq_none] at hnone
    rw [hnone] at hsome
    cases hsome
  · intro s hs
    exact hF2 s (List.mem_of_mem_filter hs) (by simpa using (List.mem_filter.1 hs).2)

theorem idempotence_amended_witness :
    reconcileCore trivialProvider "f" [⟨"t", "general", "f", 1, "", "h1"⟩]
      (reconcileCore ⟨fun _ => [⟨"h1", some "A"⟩], fun _ => true⟩ "f"
        [⟨"t", "general", "f", 1, "", "h1"⟩] []).store =
      { store := (reconcileCore ⟨fun _ => [⟨"h1", some "A"⟩], fun _ => true⟩ "f"
          [⟨"t", "general", "f", 1, "", "h1"⟩] []).store, publishCalls := []
        archiveCalls := [], stateChanged := false, wrote := false } :=
  idempotence_amended ⟨fun _ => [⟨"h1", some "A"⟩], fun _ => true⟩
    trivialProvider "f" [⟨"t", "general", "f", 1, "", "h1"⟩] []
    (by decide) (by decide) (by decide) (by decide)

theorem per_hash_uniqueness_amended_witness :
    atMostOnePerHash "f" (reconcileCore
      ⟨fun _ => [⟨"h1", some "A"⟩, ⟨"h2", some "B"⟩], fun _ => true⟩ "f"
      [⟨"t1", "general", "f", 1, "", "h1"⟩, ⟨"t2", "general", "f", 2, "", "h2"⟩]
      [⟨"h0", "C", "f"⟩]).store :=
  per_hash_uniqueness_amended _ "f" _ _ (by rw [atMostOnePerHash]; decide)
    (by decide)

end CodeQueue

/-! ## Claim theorems -/

namespace CodeQueue

/-- C1: the content-address returned by `hashTask` depends only on the task's
file, tag and title; two tasks agreeing on those three fields receive the same
hash whatever their line numbers or snippets, for every digest function. -/
theorem hashTask_identity_stable (md5hex : String → String) (t t2 : Task)
    (hf : t.file = t2.file) (hg : t.tag = t2.tag) (ht : t.title = t2.title) :
    hashTask md5hex t = hashTask md5hex t2 := by
  simp [hashTask, hf, hg, ht]

theorem hashTask_identity_stable_witness :
    (⟨"fix me", "general", "a.ts", 5, "", "h"⟩ : Task).line ≠
      (⟨"fix me", "general", "a.ts", 9, "x();", "h"⟩ : Task).line ∧
    (⟨"fix me", "general", "a.ts", 5, "", "h"⟩ : Task).snippet ≠
      (⟨"fix me", "general", "a.ts", 9, "x();", "h"⟩ : Task).snippet ∧
    hashTask id ⟨"fix me", "general", "a.ts", 5, "", "h"⟩ =
      hashTask id ⟨"fix me", "general", "a.ts", 9, "x();", "h"⟩ :=
  ⟨by decide, by decide,
    hashTask_identity_stable id _ _ rfl rfl rfl⟩

/-- C10: `hashTask` digests the bare concatenation `file ++ tag ++ title` with
no delimiter, so tasks with equal concatenations share an address for every
digest function; in particular the distinct triples `("a", "bcx", title)` and
`("ab", "cx", title)` always collide. -/
theorem hashTask_concat_collision :
    (∀ (md5hex : String → String) (t t2 : Task),
        t.file ++ t.tag ++ t.title = t2.file ++ t2.tag ++ t2.title →
        hashTask md5hex t = hashTask md5hex t2) ∧
    (∀ md5hex : String → String,
        (⟨"t", "bcx", "a", 1, "", ""⟩ : Task).file ≠
          (⟨"t", "cx", "ab", 1, "", ""⟩ : Task).file ∧
        hashTask md5hex ⟨"t", "bcx", "a", 1, "", ""⟩ =
          hashTask md5hex ⟨"t", "cx", "ab", 1, "", ""⟩) := by
  constructor
  · intro md5hex t t2 h
    simp [hashTask, h]
  · intro md5hex
    exact ⟨by decide, by simp [hashTask]⟩

theorem hashTask_concat_collision_witness :
    hashTask id ⟨"t", "general", "a", 1, "", ""⟩ =
      hashTask id ⟨"t", "general", "a", 2, "zz", "q"⟩ :=
  hashTask_concat_collision.1 id _ _ rfl

/-- C2: during one reconciliation pass, a task whose hash already has a stored
entry for the reconciled file is never part of any batch publish call, whatever
its line number. -/
theorem no_duplicate_creation (p : Provider) (f : String) (cur : List Task)
    (stored : List TaskEntry) (t : Task) (e : TaskEntry)
    (he : e ∈ stored) (hef : e.file = f) (heh : e.hash = t.hash) :
    ∀ batch ∈ (reconcileCore p f cur stored).publishCalls, t ∉ batch := by
  intro batch hbatch hmem
  have hb : batch = tasksToPublish (stored.filter (fun s => s.file == f)) cur := by
    simp only [reconcileCore] at hbatch
    split at hbatch <;> simp at hbatch
    exact hbatch
  subst hb
  have hsnap : e ∈ stored.filter (fun s => s.file == f) :=
    List.mem_filter.2 ⟨he, by simp [hef]⟩
  exact absurd heh ((mem_tasksToPublish hmem).2 e hsnap)

theorem no_duplicate_creation_witness :
    (reconcileCore trivialProvider "a.ts"
      [⟨"fix", "general", "a.ts", 9, "", "h1"⟩, ⟨"new", "general", "a.ts", 3, "", "h2"⟩]
      [⟨"h1", "item1", "a.ts"⟩]).publishCalls =
      [[⟨"new", "general", "a.ts", 3, "", "h2"⟩]] ∧
    (⟨"fix", "general", "a.ts", 9, "", "h1"⟩ : Task) ∉
      [(⟨"new", "general", "a.ts", 3, "", "h2"⟩ : Task)] :=
  ⟨by decide,
    no_duplicate_creation trivialProvider "a.ts"
      [⟨"fix", "general", "a.ts", 9, "", "h1"⟩, ⟨"new", "general", "a.ts", 3, "", "h2"⟩]
      [⟨"h1", "item1", "a.ts"⟩]
      ⟨"fix", "general", "a.ts", 9, "", "h1"⟩ ⟨"h1", "item1", "a.ts"⟩
      (by decide) rfl rfl
      [⟨"new", "general", "a.ts", 3, "", "h2"⟩] (by decide)⟩

/-- C7 counterexample: the line `"TODO: "` (a marker whose message is a single
space, hence empty after trimming) does emit a task, and that task's trimmed
title is the empty string — the regex `(.+)` accepts a whitespace-only message
and the scanner applies `.trim()` without rejecting the result. -/
theorem empty_title_emitted_cex :
    (scanDocument id true 5 "f" ["TODO: "]).map (fun t => t.title) = [""] := by
  decide

/-- C7 amended: every emitted task comes from a line matched by the marker
grammar whose message group is non-empty as a string (the regex requires at
least one character after the colon), and its title is that message trimmed;
a whitespace-only message therefore yields a task whose trimmed title is
empty, rather than being rejected. -/
theorem emitted_title_from_message (md5hex : String → String) (en : Bool)
    (ml : Nat) (f : String) (lines : List String) (t : Task)
    (h : t ∈ scanDocument md5hex en ml f lines) :
    ∃ line ∈ lines, ∃ j tagOpt msg, regexMatchLine line = some (j, tagOpt, msg) ∧
      msg ≠ [] ∧ t.title = jsTrim (String.mk msg) :=
  scanDocAux_title h

theorem emitted_title_from_message_witness :
    ∃ line ∈ ["// TODO: fix the bug"],
      ∃ j tagOpt msg, regexMatchLine line = some (j, tagOpt, msg) ∧
        msg ≠ [] ∧
        (⟨"fix the bug", "general", "f", 1, "", "fgeneralfix the bug"⟩ : Task).title =
          jsTrim (String.mk msg) :=
  emitted_title_from_message id true 5 "f" ["// TODO: fix the bug"]
    ⟨"fix the bug", "general", "f", 1, "", "fgeneralfix the bug"⟩ (by decide)

/-- C8: the lookahead window check is dead code.  With snippet capture enabled
and max lines 5, a TODO followed by 3 blank lines then `doWork();` yields the
snippet `"doWork();"` (the documented scenario), but a TODO followed by 12
blank lines also yields `"doWork();"`: the `!foundStart && j > i + 10` stop is
unreachable because the blank-line `continue` skips it, so a non-blank line
first appearing beyond the 10-line window is still captured, where the claim
requires the empty snippet. -/
theorem lookahead_window_dead_code :
    (scanDocument id true 5 "f"
        ["// TODO(bug): race condition", "", "", "", "doWork();"]).map
      (fun t => t.snippet) = ["doWork();"] ∧
    (scanDocument id true 5 "f"
        (["// TODO(bug): race condition"] ++ List.replicate 12 "" ++
          ["doWork();"])).map (fun t => t.snippet) = ["doWork();"] := by
  constructor <;> decide

/-- C9 counterexample: a stored sequence containing a `null` element makes the
load-time filter throw (`typeof null === 'object'` passes the first test and
`null.itemId` then raises a TypeError), so the reconciliation pass fails
instead of silently filtering the record out. -/
theorem load_null_fails_cex :
    reconcileState (some trivialProvider) "f" [] [StoredValue.jsNull] =
      Except.error () := rfl

/-- C9 amended: for every stored sequence with no `null` element, load-time
filtering succeeds, every surviving entry has a truthy `itemId` (objects
missing an `itemId`, objects with an empty `itemId`, and non-object elements
are dropped silently), and the reconciliation pass never fails on loading. -/
theorem load_tolerates_corruption (raw : List StoredValue)
    (hn : ∀ v ∈ raw, v ≠ StoredValue.jsNull) :
    ∃ l, loadStored raw = Except.ok l ∧ (∀ e ∈ l, e.itemId ≠ "") ∧
      ∀ p f cur, ∃ out, reconcileState p f cur raw = Except.ok out := by
  induction raw with
  | nil =>
    refine ⟨[], rfl, by simp, fun p f cur => ?_⟩
    cases p <;> exact ⟨_, rfl⟩
  | cons v rest ih =>
    have hv : v ≠ StoredValue.jsNull := hn v (List.mem_cons_self _ _)
    have hrest := ih (fun w hw => hn w (List.mem_cons_of_mem _ hw))
    rcases hrest with ⟨l, hl, hid, _⟩
    have hload : ∃ l2, loadStored (v :: rest) = Except.ok l2 ∧
        ∀ e ∈ l2, e.itemId ≠ "" := by
      cases v with
      | jsNull => exact absurd rfl hv
      | jsObj h i f =>
        cases i with
        | none => exact ⟨l, by simpa [loadStored] using hl, hid⟩
        | some s =>
          by_cases hs : s = ""
          · subst hs
            exact ⟨l, by simpa [loadStored] using hl, hid⟩
          · refine ⟨⟨h, s, f⟩ :: l, ?_, ?_⟩
            · simp [loadStored, hs, hl]
            · intro e he
              rcases List.mem_cons.1 he with rfl | he2
              · exact hs
              · exact hid e he2
      | jsUndefined => exact ⟨l, by simpa [loadStored] using hl, hid⟩
      | jsBool b => exact ⟨l, by simpa [loadStored] using hl, hid⟩
      | jsNum n => exact ⟨l, by simpa [loadStored] using hl, hid⟩
      | jsStr s => exact ⟨l, by simpa [loadStored] using hl, hid⟩
    rcases hload with ⟨l2, hl2, hid2⟩
    refine ⟨l2, hl2, hid2, fun p f cur => ?_⟩
    rw [reconcileState, hl2]
    cases p <;> exact ⟨_, rfl⟩

theorem load_tolerates_corruption_witness :
    ∃ l, loadStored [StoredValue.jsUndefined, StoredValue.jsStr "junk",
        StoredValue.jsObj "h" none "f", StoredValue.jsObj "h" (some "") "f",
        StoredValue.jsObj "h" (some "A") "f"] = Except.ok l ∧
      (∀ e ∈ l, e.itemId ≠ "") ∧
      ∀ p f cur, ∃ out, reconcileState p f cur
        [StoredValue.jsUndefined, StoredValue.jsStr "junk",
          StoredValue.jsObj "h" none "f", StoredValue.jsObj "h" (some "") "f",
          StoredValue.jsObj "h" (some "A") "f"] = Except.ok out :=
  load_tolerates_corruption _ (by decide)

end CodeQueue
